import Mathlib

/-!
# skynet2: the BSON-RPC stream codec and the flag splitter

A shallow embedding of `rpc/bsonrpc/bsoncoders.go` (`Encoder.Encode`,
`NewDecoder`, `Decoder.Decode`) and of `config/config.go` (`getFlagName`,
`SplitFlagsetFromArgs`).

Conventions of the embedding:

* a Go `byte` is a `Fin 256`; a Go `[]byte` and a Go `string` are `List Byte`
  (Go strings are indexed by byte);
* Go `int` is the 64-bit `int` of the usual targets, so the four shifted
  bytes of the length field never overflow and `Nat` carries them exactly;
* a Go `error` result is an `Option GoError`, `none` being `nil`;
* a run-time panic (slice bounds, index out of range) is an explicit outcome;
* the standard library (`io`, `bufio`, `flag`) is embedded by its documented
  behaviour; `labix.org/v2/mgo/bson` is a parameter.
-/

/-- A Go `byte`. -/
abbrev Byte := Fin 256

/-- Go `error` values met by the two packages. -/
inductive GoError
  /-- The sentinel `io.EOF`. -/
  | EOF
  /-- The sentinel `io.ErrUnexpectedEOF`. -/
  | ErrUnexpectedEOF
  /-- A value built by `fmt.Errorf(format, args...)` with `%d` arguments. -/
  | Errorf (format : String) (args : List Nat)
  /-- Any other error handed over by a collaborator (stream, serialiser). -/
  | External (code : Nat)
  deriving DecidableEq, Repr

namespace io

/-- An `io.Reader` over a byte stream that arrives in pieces.  `chunks` lists
the deliveries still to come: one `Read` call hands out bytes of the first
pending delivery only, at most as many as the caller's slice holds.  An empty
delivery is a `Read` that returns `0, nil`.  Once nothing is pending every
`Read` returns `0, fin` (`io.EOF` for a stream that was closed cleanly). -/
structure Reader where
  chunks : List (List Byte)
  fin : GoError
  deriving DecidableEq, Repr

/-- `Read(p)` with `len(p) = k`: the bytes stored in `p[0:n]`, the error and
the reader afterwards. -/
def Reader.Read (r : Reader) (k : Nat) : List Byte × Option GoError × Reader :=
  match r.chunks with
  | [] => ([], some r.fin, r)
  | c :: cs =>
    (c.take k, none, { r with chunks := if c.drop k = [] then cs else c.drop k :: cs })

/-- The reader of `bytes.NewReader(b)`: everything is available at once. -/
def NewReader (b : List Byte) : Reader :=
  { chunks := if b = [] then [] else [b], fin := GoError.EOF }

/-- All bytes the reader will still deliver. -/
def Reader.pending (r : Reader) : List Byte := r.chunks.flatten

/-- An `io.Writer`.  `respond i p` is what the `i`-th `Write` call (counted
from 0) returns for the slice `p`: the count `n` and the error.  `calls` is
the record of the calls made so far, each with the slice it was given and the
count it reported. -/
structure Writer where
  respond : Nat → List Byte → Nat × Option GoError
  calls : List (List Byte × Nat)

/-- `Write(p)`: count, error and the writer afterwards. -/
def Writer.Write (w : Writer) (p : List Byte) : Nat × Option GoError × Writer :=
  let (n, err) := w.respond w.calls.length p
  (n, err, { w with calls := w.calls ++ [(p, n)] })

/-- The bytes that reached the stream: of every call, the part reported
written. -/
def Writer.wire (w : Writer) : List Byte :=
  (w.calls.map (fun c => c.1.take c.2)).flatten

/-- A stream that accepts every write in full. -/
def acceptAll : Writer :=
  { respond := fun _ p => (p.length, none), calls := [] }

end io

namespace bufio

/-- The constant `defaultBufSize` of package `bufio`. -/
def defaultBufSize : Nat := 4096

/-- A `bufio.Reader`: the wrapped reader `rd`, the capacity `size` of its
buffer (`len(b.buf)`) and the buffered bytes not yet handed out
(`b.buf[b.r:b.w]`).  The field `b.err` is left out: an `io.Reader` of this
embedding reports an error only together with zero bytes, and `Read` then
returns that error at once through `readErr`, which clears it, so `b.err` is
`nil` between calls.  `reads` counts the `Read` calls made on this reader. -/
structure Reader where
  rd : io.Reader
  size : Nat
  buf : List Byte
  reads : Nat
  deriving DecidableEq, Repr

/-- The Go constructor `bufio.NewReader(rd)`. -/
def NewReader (rd : io.Reader) : Reader :=
  { rd := rd, size := defaultBufSize, buf := [], reads := 0 }

/-- `Read(p)` with `len(p) = k`.  The bytes are taken from at most one `Read`
on the wrapped reader, so fewer than `k` may come back: with buffered bytes
at hand it copies what is buffered; with an empty buffer it reads once from
the wrapped reader, straight into `p` when `p` is at least as large as the
buffer, into the buffer otherwise. -/
def Reader.Read (b : Reader) (k : Nat) : List Byte × Option GoError × Reader :=
  let b := { b with reads := b.reads + 1 }
  if k = 0 then ([], none, b)
  else if b.buf = [] then
    if b.size ≤ k then
      let (p, err, rd) := b.rd.Read k
      (p, err, { b with rd := rd })
    else
      let (p, err, rd) := b.rd.Read b.size
      if p = [] then ([], err, { b with rd := rd })
      else (p.take k, none, { b with rd := rd, buf := p.drop k })
  else (b.buf.take k, none, { b with buf := b.buf.drop k })

/-- All bytes the buffered reader will still deliver: the buffered ones, then
those of the wrapped reader. -/
def Reader.pending (b : Reader) : List Byte := b.buf ++ b.rd.pending

end bufio

namespace io

/-- The loop of `io.ReadAtLeast(r, buf, min)` for `len(buf) = min`:
`for n < min && err == nil { nn, err = r.Read(buf[n:]); n += nn }`.
`got` is `buf[0:n]`.  The first argument bounds the number of iterations;
`ReadFull` passes a bound the loop never reaches. -/
def readLoop : Nat → bufio.Reader → Nat → List Byte → List Byte × Option GoError × bufio.Reader
  | 0, r, _, got => (got, none, r)
  | fuel + 1, r, min, got =>
    if got.length < min then
      match r.Read (min - got.length) with
      | (p, none, r1) => readLoop fuel r1 min (got ++ p)
      | (p, some err, r1) => (got ++ p, some err, r1)
    else (got, none, r)

/-- `io.ReadFull(r, buf)` with `len(buf) = k`: the bytes read, the error and
the reader afterwards.  After the loop `ReadAtLeast` clears the error when
`n >= min` and turns `io.EOF` into `io.ErrUnexpectedEOF` when `0 < n < min`. -/
def ReadFull (r : bufio.Reader) (k : Nat) : List Byte × Option GoError × bufio.Reader :=
  match readLoop (k + r.rd.chunks.length + 1) r k [] with
  | (got, err, r1) =>
    if k ≤ got.length then (got, none, r1)
    else if 0 < got.length ∧ err = some GoError.EOF then (got, some GoError.ErrUnexpectedEOF, r1)
    else (got, err, r1)

end io

namespace bsonrpc

/-- The two functions of `labix.org/v2/mgo/bson` the codec calls.
`Unmarshal(buf, pv)` is embedded as the value it stores through `pv`. -/
structure BSON (Value : Type) where
  Marshal : Value → Except GoError (List Byte)
  Unmarshal : List Byte → Except GoError Value

/-- The Go struct `Encoder`. -/
structure Encoder where
  w : io.Writer

/-- The Go constructor `NewEncoder`. -/
def NewEncoder (w : io.Writer) : Encoder := { w := w }

/-- The method `(e *Encoder) Encode(v)`: the returned error and the encoder
(its stream) afterwards. -/
def Encoder.Encode {Value : Type} (bson : BSON Value) (e : Encoder) (v : Value) :
    Option GoError × Encoder :=
  match bson.Marshal v with
  | .error err => (some err, e)
  | .ok buf =>
    match e.w.Write buf with
    | (_, some err, w) => (some err, { w := w })
    | (n, none, w) =>
      if n ≠ buf.length then
        (some (GoError.Errorf "Wrote %d bytes, should have wrote %d" [n, buf.length]), { w := w })
      else (none, { w := w })

/-- The Go struct `Decoder`. -/
structure Decoder where
  r : bufio.Reader
  deriving DecidableEq, Repr

/-- The Go constructor `NewDecoder`: the reader is wrapped in a
`bufio.Reader`. -/
def NewDecoder (r : io.Reader) : Decoder := { r := bufio.NewReader r }

/-- How a `Decode` call ends: with a value stored through `pv` and a `nil`
error, with an error, or with a run-time panic. -/
inductive Outcome (Value : Type)
  | value (v : Value)
  | error (err : GoError)
  | panicked (msg : String)
  deriving DecidableEq, Repr

/-- What a `Decode` call leaves behind: its outcome, the decoder afterwards
and the buffer it passed to `bson.Unmarshal`, if it got that far. -/
structure Decoded (Value : Type) where
  outcome : Outcome Value
  d : Decoder
  handed : Option (List Byte)
  deriving DecidableEq, Repr

/-- The length field: `int(lbuf[0])<<0 | int(lbuf[1])<<8 | int(lbuf[2])<<16 |
int(lbuf[3])<<24`. -/
def lengthField (lbuf : List Byte) : Nat :=
  ((lbuf.getD 0 0).val <<< 0) ||| ((lbuf.getD 1 0).val <<< 8) |||
    ((lbuf.getD 2 0).val <<< 16) ||| ((lbuf.getD 3 0).val <<< 24)

/-- The method `(d *Decoder) Decode(pv)`.  `make([]byte, length)` has capacity
`length`, so `buf[0:4]` panics when `length < 4`. -/
def Decoder.Decode {Value : Type} (bson : BSON Value) (d : Decoder) : Decoded Value :=
  match d.r.Read 4 with
  | (p, err, r1) =>
    let lbuf : List Byte := p ++ List.replicate (4 - p.length) 0
    let n := p.length
    if n = 0 then { outcome := .error GoError.EOF, d := { r := r1 }, handed := none }
    else if n ≠ 4 then
      { outcome := .error (GoError.Errorf "Corrupted BSON stream: could only read %d" [n]),
        d := { r := r1 }, handed := none }
    else
      match err with
      | some e => { outcome := .error e, d := { r := r1 }, handed := none }
      | none =>
        let length := lengthField lbuf
        if length < 4 then
          { outcome := .panicked "slice bounds out of range", d := { r := r1 }, handed := none }
        else
          match io.ReadFull r1 (length - 4) with
          | (_, some e, r2) => { outcome := .error e, d := { r := r2 }, handed := none }
          | (body, none, r2) =>
            if body.length + 4 ≠ length then
              { outcome := .error (GoError.Errorf "Expected %d bytes, read %d" [length, body.length]),
                d := { r := r2 }, handed := none }
            else
              let buf := lbuf ++ body
              match bson.Unmarshal buf with
              | .error e => { outcome := .error e, d := { r := r2 }, handed := some buf }
              | .ok v => { outcome := .value v, d := { r := r2 }, handed := some buf }

/-- The bytes of `n` as a 4-byte little-endian field. -/
def le32 (n : Nat) : List Byte :=
  [Fin.ofNat n, Fin.ofNat (n / 256), Fin.ofNat (n / 65536), Fin.ofNat (n / 16777216)]

/-- A small serialiser with the framing convention of BSON, used to run the
codec on concrete inputs: a value is a byte string, its serialisation is the
4-byte little-endian total length followed by the bytes themselves; a value
too long for the length field is refused. -/
def frameBSON : BSON (List Byte) where
  Marshal := fun v =>
    if v.length + 4 < 2 ^ 32 then .ok (le32 (v.length + 4) ++ v)
    else .error (GoError.External 2)
  Unmarshal := fun buf =>
    if 4 ≤ buf.length ∧ lengthField buf = buf.length then .ok (buf.drop 4)
    else .error (GoError.External 1)

/-- A caller that encodes the values of a list in turn on one encoder: the
error of every call and the encoder afterwards. -/
def encodeAll {Value : Type} (bson : BSON Value) :
    Encoder → List Value → List (Option GoError) × Encoder
  | e, [] => ([], e)
  | e, v :: vs =>
    ((e.Encode bson v).1 :: (encodeAll bson (e.Encode bson v).2 vs).1,
      (encodeAll bson (e.Encode bson v).2 vs).2)

/-- A caller that calls `Decode` a number of times on one decoder: the
outcome of every call, in order. -/
def decodeTimes {Value : Type} (bson : BSON Value) : Nat → Decoder → List (Outcome Value)
  | 0, _ => []
  | n + 1, d => (d.Decode bson).outcome :: decodeTimes bson n (d.Decode bson).d

/-- A serialised buffer begins with its own total length as a 4-byte
little-endian field. -/
def startsWithOwnLength (buf : List Byte) : Prop :=
  ∃ (b0 b1 b2 b3 : Byte) (rest : List Byte), buf = b0 :: b1 :: b2 :: b3 :: rest ∧
    b0.val + 2 ^ 8 * b1.val + 2 ^ 16 * b2.val + 2 ^ 24 * b3.val = buf.length

/-- A serialiser that refuses every value. -/
def refusingBSON : BSON Unit where
  Marshal := fun _ => .error (GoError.External 3)
  Unmarshal := fun _ => .error (GoError.External 3)

/-- Two values whose serialisations take 4094 and 4 bytes. -/
def boundaryValues : List (List Byte) := [List.replicate 4090 0, []]

/-- The bytes on the wire after `boundaryValues` were encoded in turn on a
stream that accepts every write in full. -/
def boundaryWire : List Byte :=
  (encodeAll frameBSON (NewEncoder io.acceptAll) boundaryValues).2.w.wire

/-- A stream holding the 8-byte message `8 0 0 0 1 2 3 4` and then the 4-byte
message `4 0 0 0`, whose first delivery ends inside the first length field. -/
def splitPrefixStream : io.Reader :=
  { chunks := [[8, 0], [0, 0, 1, 2, 3, 4], [4, 0, 0, 0]], fin := GoError.EOF }

/-- The 8-byte message `8 0 0 0 1 2 3 4`, delivered in two pieces of which the
first holds `k` bytes. -/
def messageSplitAt (k : Nat) : io.Reader :=
  { chunks := [([8, 0, 0, 0, 1, 2, 3, 4] : List Byte).take k,
               ([8, 0, 0, 0, 1, 2, 3, 4] : List Byte).drop k],
    fin := GoError.EOF }

/-- A stream whose `Write` reports 3 bytes written together with an error of
its own. -/
def failingWriter : io.Writer :=
  { respond := fun _ _ => (3, some (GoError.External 7)), calls := [] }

/-- A stream whose `Write` reports 3 bytes written and no error. -/
def shortWriter : io.Writer :=
  { respond := fun _ _ => (3, none), calls := [] }

end bsonrpc

namespace flag

/-- A `flag.FlagSet`, as far as `Lookup` sees it: the names of the flags
registered in it (the keys of its `formal` map). -/
structure FlagSet where
  formal : List (List Byte)
  deriving DecidableEq, Repr

/-- Whether `Lookup(name)` returns a non-nil `*Flag`. -/
def FlagSet.Lookup (f : FlagSet) (name : List Byte) : Bool := f.formal.contains name

end flag

namespace config

/-- The conversion `string(b)` of a byte: the UTF-8 encoding of the code point
`b`, one byte below 0x80 and two bytes from there on. -/
def byteString (b : Byte) : List Byte :=
  if b.val < 128 then [b]
  else [Fin.ofNat (192 ||| (b.val >>> 6)), Fin.ofNat (128 ||| (b.val &&& 63))]

/-- The loop of `getFlagName` over the bytes of `f` from index `i` on:
`if f[i] == '=' || f[i] == ' ' { break }; name += string(f[i])`. -/
def scanName : List Byte → List Byte → List Byte
  | [], name => name
  | c :: rest, name =>
    if c = 61 ∨ c = 32 then name else scanName rest (name ++ byteString c)

/-- How a call of this package ends: it returns, or it panics. -/
inductive Run (α : Type)
  | returned (a : α)
  | panicked (msg : String)
  deriving DecidableEq, Repr

/-- The function `getFlagName`.  `f[0]` and `f[1]` are index expressions on a
string and panic when the index is not below `len(f)`. -/
def getFlagName (f : List Byte) : Run (List Byte) :=
  match f[0]? with
  | none => .panicked "index out of range"
  | some c0 =>
    if c0 = 45 then
      match f[1]? with
      | none => .panicked "index out of range"
      | some c1 =>
        let minusCount := if c1 = 45 then 2 else 1
        .returned (scanName (f.drop minusCount) [])
    else .returned []

/-- The loop of `SplitFlagsetFromArgs` over the arguments still to visit, with
the two result slices built so far. -/
def splitLoop (flagset : flag.FlagSet) :
    List (List Byte) → List (List Byte) × List (List Byte) →
      Run (List (List Byte) × List (List Byte))
  | [], acc => .returned acc
  | f :: rest, (flagsetArgs, additionalArgs) =>
    match getFlagName f with
    | .panicked msg => .panicked msg
    | .returned name =>
      if flagset.Lookup name then splitLoop flagset rest (flagsetArgs ++ [f], additionalArgs)
      else splitLoop flagset rest (flagsetArgs, additionalArgs ++ [f])

/-- The function `SplitFlagsetFromArgs`. -/
def SplitFlagsetFromArgs (flagset : flag.FlagSet) (args : List (List Byte)) :
    Run (List (List Byte) × List (List Byte)) :=
  splitLoop flagset args ([], [])

/-- Whether `getFlagName` of an argument returns a name registered in the
flag set. -/
def isFlagsetArg (flagset : flag.FlagSet) (f : List Byte) : Bool :=
  match getFlagName f with
  | .returned name => flagset.Lookup name
  | .panicked _ => false

/-- The bytes of an ASCII string literal. -/
def ascii (s : String) : List Byte := s.toList.map (fun c => Fin.ofNat c.toNat)

/-- The flag set built in `init`: the flags `config` and `uuid`. -/
def initFlagset : flag.FlagSet := { formal := [ascii "config", ascii "uuid"] }

end config

/-! ## General facts about the embedded operations -/

namespace io

/-- What one `Read` of at most `k` bytes does to a reader with a pending
delivery `c`: it hands out `c.take k` and keeps the rest of the stream. -/
theorem Read_cons (r : Reader) (c : List Byte) (cs : List (List Byte)) (k : Nat)
    (h : r.chunks = c :: cs) :
    (r.Read k).1 = c.take k ∧ (r.Read k).2.1 = none ∧
    (r.Read k).2.2.pending = c.drop k ++ cs.flatten ∧
    (r.Read k).2.2.fin = r.fin ∧
    (r.Read k).2.2.chunks.length ≤ cs.length + 1 ∧
    (c.drop k = [] → (r.Read k).2.2.chunks = cs) := by
  unfold Reader.Read
  rw [h]
  refine ⟨rfl, rfl, ?_, rfl, ?_, ?_⟩
  · simp only [Reader.pending]
    split_ifs with hd
    · simp [hd]
    · simp
  · simp only
    split_ifs <;> simp
  · intro hd
    simp [hd]

/-- What one `Read` does to an exhausted reader: no byte, the final error, and
the reader unchanged. -/
theorem Read_nil (r : Reader) (k : Nat) (h : r.chunks = []) :
    r.Read k = ([], some r.fin, r) := by
  unfold Reader.Read
  rw [h]

end io

namespace bufio

/-- Every `Read` call is counted once. -/
theorem Read_reads (b : Reader) (k : Nat) : (b.Read k).2.2.reads = b.reads + 1 := by
  unfold Reader.Read
  simp only
  split_ifs <;> rfl

/-- One `Read` of at most `k > 0` bytes on a buffered reader either hands out
the next bytes of the stream without error, and then it made progress (a byte
was handed out or a delivery of the wrapped reader was used up), or finds the
stream exhausted and returns the wrapped reader's final error with no byte. -/
theorem Read_cases (b : Reader) (k : Nat) (hk : 0 < k) :
    (∃ p b1, b.Read k = (p, none, b1) ∧ p.length ≤ k ∧ b.pending = p ++ b1.pending ∧
      b1.rd.fin = b.rd.fin ∧
      (k - p.length) + b1.rd.chunks.length < k + b.rd.chunks.length) ∨
    (∃ b1, b.Read k = ([], some b.rd.fin, b1) ∧ b.pending = [] ∧ b1.pending = [] ∧
      b1.rd.fin = b.rd.fin) := by
  have hk0 : k ≠ 0 := by omega
  by_cases hbuf : b.buf = []
  · -- the buffer is empty: one read of the wrapped reader
    cases hch : b.rd.chunks with
    | nil =>
      right
      have hp : b.pending = [] := by simp [Reader.pending, io.Reader.pending, hbuf, hch]
      by_cases hs : b.size ≤ k
      · refine ⟨{ b with reads := b.reads + 1 }, ?_, hp, hp, rfl⟩
        unfold Reader.Read
        simp [hk0, hbuf, hs, io.Read_nil _ _ hch]
      · refine ⟨{ b with reads := b.reads + 1 }, ?_, hp, hp, rfl⟩
        unfold Reader.Read
        simp [hk0, hbuf, hs, io.Read_nil _ _ hch]
    | cons c cs =>
      left
      have hp : b.pending = c ++ cs.flatten := by
        simp [Reader.pending, io.Reader.pending, hbuf, hch]
      by_cases hs : b.size ≤ k
      · obtain ⟨h1, h2, h3, h4, h5, h6⟩ := io.Read_cons b.rd c cs k hch
        refine ⟨c.take k, { b with reads := b.reads + 1, rd := (b.rd.Read k).2.2 }, ?_, ?_, ?_,
          h4, ?_⟩
        · unfold Reader.Read
          simp only [hk0, hbuf, hs, if_true, if_false]
          rw [← h1, ← h2]
        · simp [List.length_take]
        · rw [hp]
          simp only [Reader.pending, hbuf, List.nil_append, h3]
          rw [← List.append_assoc, List.take_append_drop]
        · simp only [hch, List.length_cons, List.length_take]
          by_cases hc : c.drop k = []
          · rw [h6 hc]
            omega
          · have : k < c.length := by
              by_contra hcon
              exact hc (List.drop_eq_nil_iff.mpr (by omega))
            omega
      · obtain ⟨h1, h2, h3, h4, h5, h6⟩ := io.Read_cons b.rd c cs b.size hch
        by_cases hq : c.take b.size = []
        · have hc : c = [] := by
            cases c with
            | nil => rfl
            | cons x xs =>
              have : 0 < b.size := by omega
              obtain ⟨m, hm⟩ : ∃ m, b.size = m + 1 := ⟨b.size - 1, by omega⟩
              rw [hm] at hq
              simp at hq
          refine ⟨[], { b with reads := b.reads + 1, rd := (b.rd.Read b.size).2.2 }, ?_, ?_,
            ?_, h4, ?_⟩
          · unfold Reader.Read
            simp only [hk0, hbuf, hs, if_true, if_false, h1, hq]
            rw [← h2]
          · simp
          · rw [hp]
            simp only [Reader.pending, hbuf, List.nil_append, h3]
            rw [hc]
            simp
          · have := h6 (by rw [hc]; simp)
            simp only [this, hch, List.length_nil, List.length_cons]
            omega
        · refine ⟨(c.take b.size).take k,
            { b with reads := b.reads + 1, rd := (b.rd.Read b.size).2.2,
                     buf := (c.take b.size).drop k }, ?_, ?_, ?_, h4, ?_⟩
          · unfold Reader.Read
            simp only [hk0, hbuf, hs, if_true, if_false, h1, hq]
          · simp only [List.length_take]
            omega
          · rw [hp]
            simp only [Reader.pending, h3]
            rw [← List.append_assoc, ← List.append_assoc, List.take_append_drop,
              List.take_append_drop]
          · have hpos : 0 < ((c.take b.size).take k).length := by
              rw [List.take_take, List.length_take]
              have : 0 < c.length := by
                cases c with
                | nil => simp at hq
                | cons x xs => simp
              omega
            simp only [hch, List.length_cons]
            omega
  · left
    refine ⟨b.buf.take k, { b with reads := b.reads + 1, buf := b.buf.drop k }, ?_, ?_, ?_,
      rfl, ?_⟩
    · unfold Reader.Read
      simp [hk0, hbuf]
    · simp only [List.length_take]
      omega
    · simp only [Reader.pending]
      rw [← List.append_assoc, List.take_append_drop]
    · have hpos : 0 < (b.buf.take k).length := by
        rw [List.length_take]
        have : 0 < b.buf.length := List.length_pos.mpr hbuf
        omega
      simp only
      omega

end bufio

namespace io

/-- The loop of `ReadAtLeast` ends before its iteration bound: it returns the
next `min - len(got)` bytes of the stream when the stream holds that many, and
otherwise everything the stream still holds together with the stream's final
error. -/
theorem readLoop_spec (min : Nat) : ∀ (fuel : Nat) (r : bufio.Reader) (got : List Byte),
    got.length ≤ min → (min - got.length) + r.rd.chunks.length < fuel →
    (min - got.length ≤ r.pending.length →
      ∃ r1, readLoop fuel r min got = (got ++ r.pending.take (min - got.length), none, r1) ∧
        r1.pending = r.pending.drop (min - got.length)) ∧
    (r.pending.length < min - got.length →
      ∃ r1, readLoop fuel r min got = (got ++ r.pending, some r.rd.fin, r1) ∧
        r1.pending = []) := by
  intro fuel
  induction fuel with
  | zero => intro r got _ h; omega
  | succ fuel ih =>
    intro r got hgot hfuel
    by_cases hlt : got.length < min
    · have hk : 0 < min - got.length := by omega
      rcases bufio.Read_cases r (min - got.length) hk with
        ⟨p, b1, hread, hp, hpend, hfin, hmeas⟩ | ⟨b1, hread, hpend, hpend1, _⟩
      · have hgot1 : (got ++ p).length ≤ min := by
          rw [List.length_append]; omega
        have hneed : min - (got ++ p).length = min - got.length - p.length := by
          rw [List.length_append]; omega
        have hfuel1 : (min - (got ++ p).length) + b1.rd.chunks.length < fuel := by
          rw [hneed]; omega
        have hstep : readLoop (fuel + 1) r min got = readLoop fuel b1 min (got ++ p) := by
          rw [readLoop]
          simp only [hlt, if_true, hread]
        obtain ⟨ih1, ih2⟩ := ih b1 (got ++ p) hgot1 hfuel1
        have hlen : r.pending.length = p.length + b1.pending.length := by
          rw [hpend, List.length_append]
        constructor
        · intro hen
          obtain ⟨r1, h1, h2⟩ := ih1 (by rw [hneed]; omega)
          refine ⟨r1, ?_, ?_⟩
          · rw [hstep, h1, hneed, hpend, List.take_append_eq_append_take,
              List.take_of_length_le hp, List.append_assoc]
          · rw [h2, hneed, hpend, List.drop_append_eq_append_drop,
              List.drop_of_length_le hp, List.nil_append]
        · intro hsh
          obtain ⟨r1, h1, h2⟩ := ih2 (by rw [hneed]; omega)
          refine ⟨r1, ?_, h2⟩
          rw [hstep, h1, hpend, List.append_assoc, hfin]
      · have hstep : readLoop (fuel + 1) r min got = (got ++ [], some r.rd.fin, b1) := by
          rw [readLoop]
          simp only [hlt, if_true, hread]
        constructor
        · intro hen
          rw [hpend] at hen
          simp at hen
          omega
        · intro _
          exact ⟨b1, by rw [hstep, hpend], hpend1⟩
    · have hz : min - got.length = 0 := by omega
      have hstep : readLoop (fuel + 1) r min got = (got, none, r) := by
        rw [readLoop]
        simp only [hlt, if_false]
      constructor
      · intro _
        exact ⟨r, by rw [hstep, hz]; simp, by rw [hz]; simp⟩
      · intro h
        omega

/-- `ReadFull` on a stream that still holds `k` bytes returns exactly the next
`k` bytes with a `nil` error and leaves the rest of the stream. -/
theorem ReadFull_of_enough (r : bufio.Reader) (k : Nat) (h : k ≤ r.pending.length) :
    ∃ r1, ReadFull r k = (r.pending.take k, none, r1) ∧ r1.pending = r.pending.drop k := by
  obtain ⟨r1, h1, h2⟩ :=
    (readLoop_spec k (k + r.rd.chunks.length + 1) r [] (by simp) (by simp)).1 (by simpa using h)
  refine ⟨r1, ?_, by simpa using h2⟩
  unfold ReadFull
  rw [h1]
  simp only [List.nil_append, List.length_nil, Nat.sub_zero, List.length_take]
  rw [if_pos (by omega)]

/-- `ReadFull` on a stream that ends before `k` more bytes returns an error
with the bytes it got: the stream's final error, with `io.EOF` turned into
`io.ErrUnexpectedEOF` when at least one byte was read. -/
theorem ReadFull_of_short (r : bufio.Reader) (k : Nat) (h : r.pending.length < k) :
    ∃ r1, ReadFull r k = (r.pending,
        some (if 0 < r.pending.length ∧ r.rd.fin = GoError.EOF then GoError.ErrUnexpectedEOF
          else r.rd.fin), r1) ∧
      r1.pending = [] := by
  obtain ⟨r1, h1, h2⟩ :=
    (readLoop_spec k (k + r.rd.chunks.length + 1) r [] (by simp) (by simp)).2 (by simpa using h)
  refine ⟨r1, ?_, h2⟩
  unfold ReadFull
  rw [h1]
  simp only [List.nil_append]
  rw [if_neg (by omega)]
  by_cases hc : 0 < r.pending.length ∧ r.rd.fin = GoError.EOF
  · rw [if_pos hc, if_pos ⟨hc.1, by rw [hc.2]⟩]
  · rw [if_neg hc, if_neg]
    intro hcon
    exact hc ⟨hcon.1, by simpa using hcon.2⟩

end io

namespace bsonrpc

/-- The shifted-and-ored length field is the little-endian number of its four
bytes. -/
theorem lengthField_eq_sum (b0 b1 b2 b3 : Byte) (rest : List Byte) :
    lengthField (b0 :: b1 :: b2 :: b3 :: rest)
      = b0.val + 2 ^ 8 * b1.val + 2 ^ 16 * b2.val + 2 ^ 24 * b3.val := by
  have h0 : b0.val < 2 ^ 8 := b0.isLt
  have h1 : b1.val < 2 ^ 8 := b1.isLt
  have h2 : b2.val < 2 ^ 8 := b2.isLt
  have e1 : 2 ^ 8 * b1.val ||| b0.val = 2 ^ 8 * b1.val + b0.val :=
    (Nat.mul_add_lt_is_or h0 _).symm
  have l1 : 2 ^ 8 * b1.val + b0.val < 2 ^ 16 := by omega
  have e2 : 2 ^ 16 * b2.val ||| (2 ^ 8 * b1.val + b0.val)
      = 2 ^ 16 * b2.val + (2 ^ 8 * b1.val + b0.val) := (Nat.mul_add_lt_is_or l1 _).symm
  have l2 : 2 ^ 16 * b2.val + (2 ^ 8 * b1.val + b0.val) < 2 ^ 24 := by omega
  have e3 : 2 ^ 24 * b3.val ||| (2 ^ 16 * b2.val + (2 ^ 8 * b1.val + b0.val))
      = 2 ^ 24 * b3.val + (2 ^ 16 * b2.val + (2 ^ 8 * b1.val + b0.val)) :=
    (Nat.mul_add_lt_is_or l2 _).symm
  have s0 : b0.val <<< 0 = b0.val := by simp
  have s1 : b1.val <<< 8 = 2 ^ 8 * b1.val := by rw [Nat.shiftLeft_eq, Nat.mul_comm]
  have s2 : b2.val <<< 16 = 2 ^ 16 * b2.val := by rw [Nat.shiftLeft_eq, Nat.mul_comm]
  have s3 : b3.val <<< 24 = 2 ^ 24 * b3.val := by rw [Nat.shiftLeft_eq, Nat.mul_comm]
  show (b0.val <<< 0 ||| b1.val <<< 8 ||| b2.val <<< 16 ||| b3.val <<< 24) = _
  rw [s0, s1, s2, s3, Nat.or_comm b0.val, e1, Nat.or_comm _ (2 ^ 16 * b2.val), e2,
    Nat.or_comm _ (2 ^ 24 * b3.val), e3]
  omega

/-- The serialiser `frameBSON` supports every value that fits the length
field: serialisation succeeds, its output begins with its own total length,
and deserialising the output gives the value back. -/
theorem frameBSON_supported (v : List Byte) (h : v.length + 4 < 2 ^ 32) :
    frameBSON.Marshal v = .ok (le32 (v.length + 4) ++ v) ∧
    frameBSON.Unmarshal (le32 (v.length + 4) ++ v) = .ok v ∧
    startsWithOwnLength (le32 (v.length + 4) ++ v) := by
  have hsum : (Fin.ofNat (v.length + 4) : Byte).val
      + 2 ^ 8 * (Fin.ofNat ((v.length + 4) / 256) : Byte).val
      + 2 ^ 16 * (Fin.ofNat ((v.length + 4) / 65536) : Byte).val
      + 2 ^ 24 * (Fin.ofNat ((v.length + 4) / 16777216) : Byte).val = v.length + 4 := by
    simp only [Fin.ofNat]
    omega
  have hlen : (le32 (v.length + 4) ++ v).length = v.length + 4 := by
    simp [le32]
  have hfield : lengthField (le32 (v.length + 4) ++ v) = v.length + 4 := by
    show lengthField (_ :: _ :: _ :: _ :: v) = _
    rw [lengthField_eq_sum]
    exact hsum
  refine ⟨?_, ?_, ?_⟩
  · have h2 : v.length + 4 < 4294967296 := h
    simp only [frameBSON]
    rw [if_pos h]
  · have hd : List.drop 4 (le32 (v.length + 4) ++ v) = v := rfl
    simp only [frameBSON, hfield, hlen, hd]
    simp
  · exact ⟨_, _, _, _, v, rfl, by rw [hlen]; exact hsum⟩

/-- With a successful serialisation the stream gets exactly one `Write` call,
whose argument is the serialised buffer. -/
theorem Encode_calls_of_ok {Value : Type} (bson : BSON Value) (e : Encoder) (v : Value)
    (buf : List Byte) (hm : bson.Marshal v = .ok buf) :
    (e.Encode bson v).2.w.calls
      = e.w.calls ++ [(buf, (e.w.respond e.w.calls.length buf).1)] := by
  have hw : e.w.Write buf = ((e.w.respond e.w.calls.length buf).1,
      (e.w.respond e.w.calls.length buf).2,
      { e.w with calls := e.w.calls ++ [(buf, (e.w.respond e.w.calls.length buf).1)] }) := rfl
  unfold Encoder.Encode
  rw [hm]
  simp only [hw]
  generalize (e.w.respond e.w.calls.length buf).1 = n
  generalize (e.w.respond e.w.calls.length buf).2 = oe
  cases oe with
  | some x => rfl
  | none =>
    simp only
    split <;> rfl

/-- Encoding on a stream that accepts every write in full puts exactly the
serialised buffer on the wire and returns no error. -/
theorem Encode_acceptAll {Value : Type} (bson : BSON Value) (v : Value) (buf : List Byte)
    (hm : bson.Marshal v = .ok buf) :
    ((NewEncoder io.acceptAll).Encode bson v).1 = none ∧
    ((NewEncoder io.acceptAll).Encode bson v).2.w.wire = buf := by
  unfold Encoder.Encode
  rw [hm]
  simp [NewEncoder, io.acceptAll, io.Writer.Write, io.Writer.wire]

/-- Framing once the length field is in hand: when the prefix `Read` returned
the four bytes `p` without error, they declare `N >= 4`, and the stream holds
`N - 4` further bytes, `Decode` passes to `bson.Unmarshal` the `N`-byte buffer
made of `p` and the next `N - 4` bytes, returns what `Unmarshal` returns, and
leaves the stream right after those bytes. -/
theorem Decode_frames {Value : Type} (bson : BSON Value) (d : Decoder)
    (p : List Byte) (r1 : bufio.Reader)
    (hread : d.r.Read 4 = (p, none, r1)) (hp : p.length = 4)
    (hN : 4 ≤ lengthField p) (hbody : lengthField p - 4 ≤ r1.pending.length) :
    ∃ r2, d.Decode bson =
        { outcome := match bson.Unmarshal (p ++ r1.pending.take (lengthField p - 4)) with
            | .ok v => .value v
            | .error e => .error e,
          d := { r := r2 },
          handed := some (p ++ r1.pending.take (lengthField p - 4)) } ∧
      (p ++ r1.pending.take (lengthField p - 4)).length = lengthField p ∧
      r2.pending = r1.pending.drop (lengthField p - 4) := by
  obtain ⟨r2, hfull, hpend⟩ := io.ReadFull_of_enough r1 (lengthField p - 4) hbody
  have hlen : (r1.pending.take (lengthField p - 4)).length = lengthField p - 4 := by
    rw [List.length_take]; omega
  refine ⟨r2, ?_, ?_, hpend⟩
  · unfold Decoder.Decode
    rw [hread]
    have hrep : p ++ List.replicate (4 - 4) (0 : Byte) = p := by simp
    simp only [hp, hrep]
    rw [if_neg (by decide), if_neg (by simp), if_neg (by omega), hfull]
    simp only [hlen]
    rw [if_neg (by omega)]
    cases bson.Unmarshal (p ++ r1.pending.take (lengthField p - 4)) <;> rfl
  · rw [List.length_append, hlen, hp]; omega

/-- A truncated body: when the prefix `Read` returned the four bytes `p`
without error, they declare `N >= 4`, and the stream ends before `N - 4`
further bytes, `Decode` returns the error of `io.ReadFull`: the stream's final
error, `io.EOF` being turned into `io.ErrUnexpectedEOF` when at least one body
byte was read. -/
theorem Decode_truncated_body {Value : Type} (bson : BSON Value) (d : Decoder)
    (p : List Byte) (r1 : bufio.Reader)
    (hread : d.r.Read 4 = (p, none, r1)) (hp : p.length = 4)
    (hN : 4 ≤ lengthField p) (hbody : r1.pending.length < lengthField p - 4) :
    (d.Decode bson).outcome =
        .error (if 0 < r1.pending.length ∧ r1.rd.fin = GoError.EOF
          then GoError.ErrUnexpectedEOF else r1.rd.fin) ∧
      (d.Decode bson).handed = none := by
  obtain ⟨r2, hfull, _⟩ := io.ReadFull_of_short r1 (lengthField p - 4) hbody
  have hrep : p ++ List.replicate (4 - 4) (0 : Byte) = p := by simp
  unfold Decoder.Decode
  rw [hread]
  simp only [hp, hrep]
  rw [if_neg (by decide), if_neg (by simp), if_neg (by omega), hfull]
  exact ⟨rfl, rfl⟩

/-- A length field below 4: when the prefix `Read` returned the four bytes `p`
without error and they declare `N < 4`, `Decode` panics. -/
theorem Decode_short_length {Value : Type} (bson : BSON Value) (d : Decoder)
    (p : List Byte) (r1 : bufio.Reader)
    (hread : d.r.Read 4 = (p, none, r1)) (hp : p.length = 4) (hN : lengthField p < 4) :
    (d.Decode bson).outcome = .panicked "slice bounds out of range" := by
  have hrep : p ++ List.replicate (4 - 4) (0 : Byte) = p := by simp
  unfold Decoder.Decode
  rw [hread]
  simp only [hp, hrep]
  rw [if_neg (by decide), if_neg (by simp), if_pos hN]

/-- The first `Read` of a fresh decoder over a reader that has at least four
bytes at hand returns those four bytes. -/
theorem NewDecoder_first_read (b0 b1 b2 b3 : Byte) (tail : List Byte) :
    ∃ r1, (NewDecoder (io.NewReader (b0 :: b1 :: b2 :: b3 :: tail))).r.Read 4
        = ([b0, b1, b2, b3], none, r1) ∧ r1.pending = tail := by
  have hk : 0 < 4 := by decide
  rcases bufio.Read_cases (NewDecoder (io.NewReader (b0 :: b1 :: b2 :: b3 :: tail))).r 4 hk with
    ⟨p, r1, hread, _, hpend, _, _⟩ | ⟨r1, _, hpend, _, _⟩
  · have hp : p = [b0, b1, b2, b3] := by
      have h1 : ((NewDecoder (io.NewReader (b0 :: b1 :: b2 :: b3 :: tail))).r.Read 4).1 = p :=
        congrArg Prod.fst hread
      rw [← h1]
      simp [bufio.Reader.Read, NewDecoder, bufio.NewReader, io.NewReader, io.Reader.Read,
        bufio.defaultBufSize]
    refine ⟨r1, by rw [hread, hp], ?_⟩
    have hall : (NewDecoder (io.NewReader (b0 :: b1 :: b2 :: b3 :: tail))).r.pending
        = b0 :: b1 :: b2 :: b3 :: tail := by
      simp [NewDecoder, bufio.NewReader, io.NewReader, bufio.Reader.pending, io.Reader.pending]
    rw [hall, hp] at hpend
    simpa using hpend.symm
  · have hall : (NewDecoder (io.NewReader (b0 :: b1 :: b2 :: b3 :: tail))).r.pending
        = b0 :: b1 :: b2 :: b3 :: tail := by
      simp [NewDecoder, bufio.NewReader, io.NewReader, bufio.Reader.pending, io.Reader.pending]
    rw [hall] at hpend
    simp at hpend

/-- Round trip of one message: a value whose serialisation begins with its own
total length and deserialises back to the value is returned by the first
`Decode` of a fresh decoder over a reader that has the serialisation, and
whatever follows it, at hand in one piece; the stream is left right after the
message. -/
theorem Decode_first_message {Value : Type} (bson : BSON Value) (v : Value)
    (buf rest : List Byte) (hu : bson.Unmarshal buf = .ok v) (hs : startsWithOwnLength buf) :
    ((NewDecoder (io.NewReader (buf ++ rest))).Decode bson).outcome = .value v ∧
    ((NewDecoder (io.NewReader (buf ++ rest))).Decode bson).handed = some buf ∧
    ((NewDecoder (io.NewReader (buf ++ rest))).Decode bson).d.r.pending = rest := by
  obtain ⟨b0, b1, b2, b3, body, hbuf, hsum⟩ := hs
  have hfield : lengthField [b0, b1, b2, b3] = buf.length := by
    rw [lengthField_eq_sum, hsum]
  have hblen : buf.length = body.length + 4 := by rw [hbuf]; simp
  have hcons : buf ++ rest = b0 :: b1 :: b2 :: b3 :: (body ++ rest) := by rw [hbuf]; rfl
  obtain ⟨r1, hread, hpend⟩ := NewDecoder_first_read b0 b1 b2 b3 (body ++ rest)
  rw [← hcons] at hread
  have hneed : lengthField [b0, b1, b2, b3] - 4 = body.length := by omega
  obtain ⟨r2, hdec, _, hpend2⟩ := Decode_frames bson (NewDecoder (io.NewReader (buf ++ rest)))
    [b0, b1, b2, b3] r1 hread rfl (by omega) (by rw [hneed, hpend]; simp)
  have htake : [b0, b1, b2, b3] ++ r1.pending.take (lengthField [b0, b1, b2, b3] - 4) = buf := by
    rw [hneed, hpend, List.take_left, hbuf]; rfl
  rw [htake, hu] at hdec
  rw [hdec]
  refine ⟨rfl, rfl, ?_⟩
  show r2.pending = rest
  rw [hpend2, hneed, hpend, List.drop_left]

end bsonrpc

namespace config

/-- The function `getFlagName` returns on every argument other than the empty
string and the lone `-`. -/
theorem getFlagName_returns (f : List Byte) (h0 : f ≠ []) (h1 : f ≠ [45]) :
    ∃ name, getFlagName f = .returned name := by
  cases f with
  | nil => exact absurd rfl h0
  | cons c0 rest =>
    by_cases hc : c0 = 45
    · cases rest with
      | nil => exact absurd (by rw [hc]) h1
      | cons c1 rest1 =>
        exact ⟨scanName (List.drop (if c1 = 45 then 2 else 1) (c0 :: c1 :: rest1)) [], by
          simp [getFlagName, hc]⟩
    · exact ⟨[], by simp [getFlagName, hc]⟩

/-- On arguments for which `getFlagName` returns, the loop of
`SplitFlagsetFromArgs` appends to the first slice the arguments whose flag
name is registered and to the second slice the other ones, in order. -/
theorem splitLoop_returned (flagset : flag.FlagSet) :
    ∀ (args : List (List Byte)) (acc : List (List Byte) × List (List Byte)),
      (∀ f ∈ args, ∃ name, getFlagName f = .returned name) →
      splitLoop flagset args acc
        = .returned (acc.1 ++ args.filter (isFlagsetArg flagset),
            acc.2 ++ args.filter (fun f => !isFlagsetArg flagset f)) := by
  intro args
  induction args with
  | nil => intro acc _; simp [splitLoop]
  | cons f rest ih =>
    intro acc h
    obtain ⟨name, hname⟩ := h f (List.mem_cons_self f rest)
    have hrest : ∀ g ∈ rest, ∃ name, getFlagName g = .returned name :=
      fun g hg => h g (List.mem_cons_of_mem f hg)
    obtain ⟨a1, a2⟩ := acc
    rw [splitLoop, hname]
    simp only
    by_cases hl : flagset.Lookup name = true
    · have hf : isFlagsetArg flagset f = true := by simp [isFlagsetArg, hname, hl]
      rw [if_pos hl, ih _ hrest]
      simp [List.filter_cons, hf]
    · have hf : isFlagsetArg flagset f = false := by simp [isFlagsetArg, hname, hl]
      rw [if_neg hl, ih _ hrest]
      simp [List.filter_cons, hf]

/-- On an argument list without the empty string and without the lone `-`,
`SplitFlagsetFromArgs` returns the arguments whose flag name is registered and
the other ones, each list in the order of `args`. -/
theorem SplitFlagsetFromArgs_partition (flagset : flag.FlagSet) (args : List (List Byte))
    (h : ∀ f ∈ args, f ≠ [] ∧ f ≠ [45]) :
    SplitFlagsetFromArgs flagset args
      = .returned (args.filter (isFlagsetArg flagset),
          args.filter (fun f => !isFlagsetArg flagset f)) := by
  unfold SplitFlagsetFromArgs
  rw [splitLoop_returned flagset args ([], [])
    (fun f hf => getFlagName_returns f (h f hf).1 (h f hf).2)]
  simp

end config

/-! ## The claims -/

namespace bsonrpc

/-- C1, at a failing input: two supported values whose serialisations take
4094 and 4 bytes are encoded without error, 4098 bytes in all; of two
`Decode` calls on a reader over exactly those bytes the first returns the
first value and the second fails with "Corrupted BSON stream: could only read
2", because the buffered reader holds 4096 bytes and its `Read` hands out the
two that are left. -/
theorem roundtrip_breaks_at_buffer_boundary :
    (∀ v ∈ boundaryValues, ∃ buf, frameBSON.Marshal v = .ok buf ∧
      frameBSON.Unmarshal buf = .ok v ∧ startsWithOwnLength buf) ∧
    (encodeAll frameBSON (NewEncoder io.acceptAll) boundaryValues).1 = [none, none] ∧
    boundaryWire.length = 4098 ∧
    decodeTimes frameBSON 2 (NewDecoder (io.NewReader boundaryWire))
      = [.value (List.replicate 4090 0),
         .error (GoError.Errorf "Corrupted BSON stream: could only read %d" [2])] := by
  refine ⟨?_, by decide!, by decide!, by decide!⟩
  intro v hv
  have hlen : v.length + 4 < 2 ^ 32 := by
    simp only [boundaryValues, List.mem_cons, List.mem_singleton, List.not_mem_nil,
      or_false] at hv
    rcases hv with rfl | rfl
    · rw [List.length_replicate]; decide
    · decide
  exact ⟨_, frameBSON_supported v hlen⟩

/-- C2, at a failing input: the stream holds `8 0 0 0 1 2 3 4` and a further
message, so the length field declares `N = 8` and at least `N - 4` bytes
follow, but the first delivery ends after two bytes: `Decode` fails with
"Corrupted BSON stream: could only read 2", passes no buffer to
`bson.Unmarshal`, and leaves the stream advanced by 2 bytes, not 8. -/
theorem framing_breaks_on_split_prefix :
    (NewDecoder splitPrefixStream).r.pending = [8, 0, 0, 0, 1, 2, 3, 4, 4, 0, 0, 0] ∧
    ((NewDecoder splitPrefixStream).Decode frameBSON).outcome
      = .error (GoError.Errorf "Corrupted BSON stream: could only read %d" [2]) ∧
    ((NewDecoder splitPrefixStream).Decode frameBSON).handed = none ∧
    ((NewDecoder splitPrefixStream).Decode frameBSON).d.r.pending
      = [0, 0, 1, 2, 3, 4, 4, 0, 0, 0] := by
  decide

/-- C3, at a failing input: the length field declares `N = 8` and the stream
ends after 2 of the 4 body bytes; `Decode` returns `io.ErrUnexpectedEOF`, the
error of `io.ReadFull`, not "Expected 8 bytes, read 2". -/
theorem truncated_body_returns_unexpected_eof :
    ((NewDecoder (io.NewReader [8, 0, 0, 0, 1, 2])).Decode frameBSON).outcome
      = .error GoError.ErrUnexpectedEOF ∧
    ((NewDecoder (io.NewReader [8, 0, 0, 0, 1, 2])).Decode frameBSON).outcome
      ≠ .error (GoError.Errorf "Expected %d bytes, read %d" [8, 2]) := by
  decide

/-- C4, at a failing input: the stream holds the length field `9 0 0 0` and
ends; `Decode` consumes the four bytes and returns `io.EOF`. -/
theorem eof_returned_after_prefix :
    (NewDecoder (io.NewReader [9, 0, 0, 0])).r.pending = [9, 0, 0, 0] ∧
    ((NewDecoder (io.NewReader [9, 0, 0, 0])).Decode frameBSON).outcome
      = .error GoError.EOF ∧
    ((NewDecoder (io.NewReader [9, 0, 0, 0])).Decode frameBSON).d.r.pending = [] ∧
    ((NewDecoder (io.NewReader [9, 0, 0, 0])).Decode frameBSON).d.r.reads = 2 := by
  decide

/-- C5, at a failing input: the message `8 0 0 0 1 2 3 4` decodes to the value
`1 2 3 4` when it arrives in one piece, and fails with "Corrupted BSON stream:
could only read k" when the first piece holds `k = 1, 2, 3` bytes. -/
theorem decode_depends_on_chunking :
    ((NewDecoder (io.NewReader [8, 0, 0, 0, 1, 2, 3, 4])).Decode frameBSON).outcome
      = .value [1, 2, 3, 4] ∧
    ((NewDecoder (messageSplitAt 1)).Decode frameBSON).outcome
      = .error (GoError.Errorf "Corrupted BSON stream: could only read %d" [1]) ∧
    ((NewDecoder (messageSplitAt 2)).Decode frameBSON).outcome
      = .error (GoError.Errorf "Corrupted BSON stream: could only read %d" [2]) ∧
    ((NewDecoder (messageSplitAt 3)).Decode frameBSON).outcome
      = .error (GoError.Errorf "Corrupted BSON stream: could only read %d" [3]) ∧
    (NewDecoder (messageSplitAt 1)).r.pending = [8, 0, 0, 0, 1, 2, 3, 4] ∧
    (NewDecoder (messageSplitAt 2)).r.pending = [8, 0, 0, 0, 1, 2, 3, 4] ∧
    (NewDecoder (messageSplitAt 3)).r.pending = [8, 0, 0, 0, 1, 2, 3, 4] := by
  decide

/-- C6: when the prefix read of `Decode` obtains `n <= 3` bytes, the call
returns `io.EOF` for `n = 0` and the error "Corrupted BSON stream: could only
read n" for `1 <= n <= 3`; the decoder is left as that one `Read` call left
it (one `Read` call in all, no body read) and no buffer is passed to
`bson.Unmarshal`. -/
theorem Decode_prefix_outcome {Value : Type} (bson : BSON Value) (d : Decoder)
    (h : (d.r.Read 4).1.length ≤ 3) :
    d.Decode bson =
      { outcome := .error (if (d.r.Read 4).1.length = 0 then GoError.EOF
          else GoError.Errorf "Corrupted BSON stream: could only read %d"
            [(d.r.Read 4).1.length]),
        d := { r := (d.r.Read 4).2.2 },
        handed := none } ∧
    (d.Decode bson).d.r.reads = d.r.reads + 1 := by
  have hreads : (d.r.Read 4).2.2.reads = d.r.reads + 1 := bufio.Read_reads d.r 4
  have hd : d.Decode bson =
      { outcome := .error (if (d.r.Read 4).1.length = 0 then GoError.EOF
          else GoError.Errorf "Corrupted BSON stream: could only read %d"
            [(d.r.Read 4).1.length]),
        d := { r := (d.r.Read 4).2.2 },
        handed := none } := by
    unfold Decoder.Decode
    rcases hr : d.r.Read 4 with ⟨p, err, r1⟩
    rw [hr] at h
    simp only at h ⊢
    by_cases h0 : p.length = 0
    · simp [h0]
    · have h4 : p.length ≠ 4 := by omega
      simp [h0, h4]
  exact ⟨hd, by rw [hd]; exact hreads⟩

/-- Witness of C6: a stream that is exhausted (`n = 0`) and a stream that ends
after two bytes (`n = 2`). -/
theorem Decode_prefix_outcome_witness :
    ((NewDecoder (io.NewReader [])).Decode frameBSON).outcome = .error GoError.EOF ∧
    ((NewDecoder (io.NewReader [9, 0])).Decode frameBSON).outcome
      = .error (GoError.Errorf "Corrupted BSON stream: could only read %d" [2]) ∧
    ((NewDecoder (io.NewReader [9, 0])).Decode frameBSON).handed = none ∧
    ((NewDecoder (io.NewReader [9, 0])).Decode frameBSON).d.r.reads = 1 := by
  have h0 := Decode_prefix_outcome frameBSON (NewDecoder (io.NewReader [])) (by decide)
  have h2 := Decode_prefix_outcome frameBSON (NewDecoder (io.NewReader [9, 0])) (by decide)
  refine ⟨?_, ?_, ?_, ?_⟩
  · rw [h0.1]; rfl
  · rw [h2.1]; rfl
  · rw [h2.1]
  · rw [h2.2]; rfl

/-- C7, counterexample: the value `1 2` serialises to 6 bytes, the stream
reports 3 bytes written together with an error of its own, and `Encode`
returns that error, not the error that carries the two counts. -/
theorem short_write_returns_stream_error :
    frameBSON.Marshal [1, 2] = .ok [6, 0, 0, 0, 1, 2] ∧
    (failingWriter.Write [6, 0, 0, 0, 1, 2]).1 = 3 ∧
    ((NewEncoder failingWriter).Encode frameBSON [1, 2]).1 = some (GoError.External 7) ∧
    ((NewEncoder failingWriter).Encode frameBSON [1, 2]).1
      ≠ some (GoError.Errorf "Wrote %d bytes, should have wrote %d" [3, 6]) := by
  refine ⟨rfl, rfl, rfl, ?_⟩
  decide

/-- C7, as amended: when the serialisation of `v` succeeds with a buffer of
length `l` and the `Write` call reports `n < l` bytes, `Encode` returns the
stream's own error if the call reported one and the error "Wrote n bytes,
should have wrote l" otherwise; either way the stream got exactly one `Write`
call, with the whole buffer. -/
theorem Encode_short_write {Value : Type} (bson : BSON Value) (e : Encoder) (v : Value)
    (buf : List Byte) (n : Nat) (err : Option GoError) (w1 : io.Writer)
    (hm : bson.Marshal v = .ok buf) (hw : e.w.Write buf = (n, err, w1))
    (hn : n < buf.length) :
    (e.Encode bson v).1
      = some (match err with
          | some x => x
          | none => GoError.Errorf "Wrote %d bytes, should have wrote %d" [n, buf.length]) ∧
    (e.Encode bson v).2.w.calls = e.w.calls ++ [(buf, n)] := by
  have hc := Encode_calls_of_ok bson e v buf hm
  have hresp : (e.w.respond e.w.calls.length buf).1 = n := by
    have := congrArg Prod.fst hw
    simpa [io.Writer.Write] using this
  rw [hresp] at hc
  refine ⟨?_, hc⟩
  unfold Encoder.Encode
  rw [hm]
  simp only [hw]
  cases err with
  | some x => rfl
  | none =>
    have hne : n ≠ buf.length := by omega
    simp [hne]

/-- Witness of C7 as amended: the 6-byte buffer of the value `1 2` on a stream
that reports 3 bytes written and no error. -/
theorem Encode_short_write_witness :
    ((NewEncoder shortWriter).Encode frameBSON [1, 2]).1
      = some (GoError.Errorf "Wrote %d bytes, should have wrote %d" [3, 6]) ∧
    ((NewEncoder shortWriter).Encode frameBSON [1, 2]).2.w.calls
      = [([6, 0, 0, 0, 1, 2], 3)] :=
  Encode_short_write frameBSON (NewEncoder shortWriter) [1, 2] [6, 0, 0, 0, 1, 2] 3 none
    ((NewEncoder shortWriter).w.Write [6, 0, 0, 0, 1, 2]).2.2 rfl rfl (by decide)

/-- C8: `Encode` returns the serialiser's error and leaves the stream as it
was when serialisation fails; otherwise the stream gets exactly one `Write`
call, whose argument is the serialised buffer unchanged, so that a buffer
which begins with its own 4-byte little-endian total length reaches the
stream as a message whose length field equals its length, which is at least
4. -/
theorem Encode_write_effect {Value : Type} (bson : BSON Value) (e : Encoder) (v : Value) :
    (∀ err, bson.Marshal v = .error err → e.Encode bson v = (some err, e)) ∧
    (∀ buf, bson.Marshal v = .ok buf →
      (e.Encode bson v).2.w.calls
          = e.w.calls ++ [(buf, (e.w.respond e.w.calls.length buf).1)] ∧
      (startsWithOwnLength buf → ∀ msg ∈ ((e.Encode bson v).2.w.calls.drop e.w.calls.length),
        lengthField msg.1 = msg.1.length ∧ 4 ≤ msg.1.length)) := by
  constructor
  · intro err hm
    unfold Encoder.Encode
    rw [hm]
  · intro buf hm
    have hc := Encode_calls_of_ok bson e v buf hm
    refine ⟨hc, ?_⟩
    intro hs msg hmem
    rw [hc, List.drop_left] at hmem
    simp only [List.mem_singleton] at hmem
    subst hmem
    obtain ⟨b0, b1, b2, b3, rest, hbuf, hsum⟩ := hs
    constructor
    · show lengthField buf = buf.length
      rw [← hsum, hbuf]
      exact lengthField_eq_sum b0 b1 b2 b3 rest
    · show 4 ≤ buf.length
      rw [hbuf]
      simp

/-- Witness of C8: the value `7 9` on a stream that accepts every write, and a
serialiser that refuses its value. -/
theorem Encode_write_effect_witness :
    ((NewEncoder io.acceptAll).Encode frameBSON [7, 9]).2.w.calls
      = [([6, 0, 0, 0, 7, 9], 6)] ∧
    lengthField [6, 0, 0, 0, 7, 9] = 6 ∧
    ((NewEncoder io.acceptAll).Encode refusingBSON ()).1 = some (GoError.External 3) ∧
    ((NewEncoder io.acceptAll).Encode refusingBSON ()).2.w.calls = [] := by
  have h := (Encode_write_effect frameBSON (NewEncoder io.acceptAll) [7, 9]).2
    [6, 0, 0, 0, 7, 9] rfl
  have hr := (Encode_write_effect refusingBSON (NewEncoder io.acceptAll) ()).1
    (GoError.External 3) rfl
  refine ⟨h.1, ?_, by rw [hr], by rw [hr]; rfl⟩
  exact (h.2 ⟨6, 0, 0, 0, [7, 9], rfl, by decide⟩ ([6, 0, 0, 0, 7, 9], 6)
    (by rw [h.1]; simp [NewEncoder, io.acceptAll])).1

/-- C9, at the failing inputs: a length field that declares 0, 1, 2 or 3 makes
`Decode` panic at `buf[0:4]`. -/
theorem Decode_panics_on_short_length :
    ((NewDecoder (io.NewReader [0, 0, 0, 0])).Decode frameBSON).outcome
      = .panicked "slice bounds out of range" ∧
    ((NewDecoder (io.NewReader [1, 0, 0, 0, 5])).Decode frameBSON).outcome
      = .panicked "slice bounds out of range" ∧
    ((NewDecoder (io.NewReader [2, 0, 0, 0, 5, 6])).Decode frameBSON).outcome
      = .panicked "slice bounds out of range" ∧
    ((NewDecoder (io.NewReader [3, 0, 0, 0, 5, 6, 7])).Decode frameBSON).outcome
      = .panicked "slice bounds out of range" := by
  decide

end bsonrpc

namespace config

/-- C10, at the failing inputs: `getFlagName` panics on the empty string (at
`f[0]`) and on the argument `-` (at `f[1]`), and so does
`SplitFlagsetFromArgs` on an argument list that contains one of them. -/
theorem SplitFlagsetFromArgs_panics_on_empty_and_dash :
    getFlagName (ascii "") = .panicked "index out of range" ∧
    getFlagName (ascii "-") = .panicked "index out of range" ∧
    SplitFlagsetFromArgs initFlagset [ascii "-config=a.conf", ascii ""]
      = .panicked "index out of range" ∧
    SplitFlagsetFromArgs initFlagset [ascii "-uuid=7", ascii "-"]
      = .panicked "index out of range" := by
  decide

end config
